import Mathlib

/-!
Verification of the termsvg IR pipeline and GIF encoding core.

This development gives a shallow embedding, in Lean 4, of the core data
model and algorithms of the termsvg repository:

* the color catalog (`pkg/color`, snapshot in `pkg/svg/svg.go`):
  `ColorCatalog.register` with its `uint16` ID counter;
* the IR frame model and frame deduplication (`pkg/ir`, snapshot
  `deduplicateFrames` / `framesEqual` / `rowsEqual` / `textRunsEqual`);
* row capture with text-run grouping (`pkg/ir/processor.go`,
  `Processor.captureRow` / `cellToAttrs`);
* event preprocessing (`Processor.preprocessEvents`);
* GIF delay quantization and delta frames (`pkg/renderer/gif/renderer.go`,
  `calculateDelay` / `computeDelta`);
* the paletted frame renderer's font-failure path
  (`pkg/raster/paletted.go`, `renderSingleFrame`).

Go machine integers are modelled as follows: `time.Duration` and `int`
values that are only added, compared or divided are modelled as `Int`
(no claim here depends on 64-bit wrap-around); the `uint16` color ID
counter is modelled with an explicit `% 65536`, because its overflow is
observable through `Register`. Go strings holding terminal text are
modelled as `List Char` (rune sequences); event payloads as `String`.
Go maps whose keys are never overwritten are modelled as insertion-ordered
association lists, which have the same lookup function.
-/

set_option linter.unusedSectionVars false

namespace Termsvg

/-! ## Color model (pkg/color/color.go, palette.go) -/

/-- Model of Go `image/color.RGBA`: four `uint8` channels. -/
structure RGBA where
  r : Nat
  g : Nat
  b : Nat
  a : Nat
deriving DecidableEq, Repr

/-- Model of `color.Type` (`Default | ANSI | Extended | TrueColor`). -/
inductive ColorType where
  | Default
  | ANSI
  | Extended
  | TrueColor
deriving DecidableEq, Repr

/-- Model of `color.Color`: a tagged union of the color variants.
The Go field `Type` is called `ctype` here (`Type` is reserved in Lean). -/
structure Color where
  ctype : ColorType
  index : Nat
  rgb : RGBA
deriving DecidableEq, Repr

/-- Model of `color.Palette` (`[256]color.RGBA` with `At(index uint8)`):
a lookup function from the (uint8-valued) index to an RGBA entry. -/
def Palette : Type := Nat → RGBA

/-- Model of `color.FromANSI`. -/
def fromANSI (index : Nat) : Color :=
  { ctype := ColorType.ANSI, index := index, rgb := ⟨0, 0, 0, 0⟩ }

/-- Model of `color.FromExtended`. -/
def fromExtended (index : Nat) : Color :=
  { ctype := ColorType.Extended, index := index, rgb := ⟨0, 0, 0, 0⟩ }

/-- Model of `color.FromRGB`. -/
def fromRGB (r g b : Nat) : Color :=
  { ctype := ColorType.TrueColor, index := 0, rgb := ⟨r, g, b, 255⟩ }

/-- Model of `Color.ToRGBA`: ANSI/Extended resolve through the palette,
TrueColor returns its own RGB, Default resolves to transparent. -/
def toRGBA (c : Color) (palette : Palette) : RGBA :=
  match c.ctype with
  | ColorType.ANSI => palette c.index
  | ColorType.Extended => palette c.index
  | ColorType.TrueColor => c.rgb
  | ColorType.Default => ⟨0, 0, 0, 0⟩

/-! ## Color catalog (pkg/svg/svg.go snapshot, `ColorCatalog`) -/

/-- Model of `colorKey`: the identity of a resolved color, its RGB triple. -/
structure ColorKey where
  r : Nat
  g : Nat
  b : Nat
deriving DecidableEq, Repr

/-- Association-list get, the lookup function of a Go map whose keys are
never overwritten. -/
def assocGet {α β : Type} [DecidableEq α] : List (α × β) → α → Option β
  | [], _ => none
  | e :: rest, k => if e.1 = k then some e.2 else assocGet rest k

/-- Association-list set: replace the value at the key if present,
otherwise append the pair. This is Go map assignment. -/
def assocSet {α β : Type} [DecidableEq α] : List (α × β) → α → β → List (α × β)
  | [], k, v => [(k, v)]
  | e :: rest, k, v => if e.1 = k then (k, v) :: rest else e :: assocSet rest k v

/-- Model of `ColorCatalog`. The `colors` and `lookup` maps are modelled as
insertion-ordered association lists; `nextID` is the `uint16` counter, kept
in `[0, 65536)` by an explicit mod. -/
structure ColorCatalog where
  colors : List (Nat × RGBA)
  lookup : List (ColorKey × Nat)
  nextID : Nat
  defaultFG : RGBA
  defaultBG : RGBA
deriving DecidableEq, Repr

/-- Model of `DefaultColorID = 0`. -/
def DefaultColorID : Nat := 0

/-- Model of `NewColorCatalog`. -/
def newColorCatalog (defaultFG defaultBG : RGBA) : ColorCatalog :=
  { colors := [], lookup := [], nextID := 1,
    defaultFG := defaultFG, defaultBG := defaultBG }

/-- Resolved RGB key of a color under a palette: the Go local
`key := colorKey{r: rgba.R, g: rgba.G, b: rgba.B}` of `Register`. -/
def resolvedKey (col : Color) (palette : Palette) : ColorKey :=
  ⟨(toRGBA col palette).r, (toRGBA col palette).g, (toRGBA col palette).b⟩

/-- Model of `ColorCatalog.Register`: Default colors return `DefaultColorID`
without touching the state; otherwise the color is resolved through the
palette, deduplicated against `lookup`, and a fresh ID is taken from the
wrapping `uint16` counter when the key is new (`c.nextID++` on a `uint16`
is `(nextID + 1) % 65536`). -/
def register (col : Color) (palette : Palette) (c : ColorCatalog) :
    Nat × ColorCatalog :=
  if col.ctype = ColorType.Default then
    (DefaultColorID, c)
  else
    match assocGet c.lookup (resolvedKey col palette) with
    | some id => (id, c)
    | none =>
      (c.nextID, { c with
        colors := assocSet c.colors c.nextID (toRGBA col palette),
        lookup := c.lookup ++ [(resolvedKey col palette, c.nextID)],
        nextID := (c.nextID + 1) % 65536 })

/-- A sequence of `Register` calls, keeping only the final catalog state.
Every catalog state reachable in the program is `registerAll` of some call
history. -/
def registerAll (palette : Palette) (cols : List Color) (c : ColorCatalog) :
    ColorCatalog :=
  cols.foldl (fun s col => (register col palette s).2) c

/-! ## IR frame model (pkg/ir snapshot, `ir.go`) -/

/-- Model of `ir.CellAttrs`: catalog color IDs plus style flags. -/
structure CellAttrs where
  fg : Nat
  bg : Nat
  bold : Bool
  italic : Bool
  underline : Bool
  dim : Bool
deriving DecidableEq, Repr

/-- Model of `ir.TextRun`. `Text` is a Go string holding the run's runes,
modelled as the rune sequence. -/
structure TextRun where
  text : List Char
  startCol : Nat
  attrs : CellAttrs
deriving DecidableEq, Repr

instance : Inhabited TextRun :=
  ⟨{ text := [], startCol := 0,
     attrs := { fg := 0, bg := 0, bold := false, italic := false,
                underline := false, dim := false } }⟩

/-- Model of `ir.Row`. -/
structure Row where
  y : Nat
  runs : List TextRun
deriving DecidableEq, Repr

/-- Model of `ir.Cursor`. -/
structure Cursor where
  col : Int
  row : Int
  visible : Bool
deriving DecidableEq, Repr

/-- Model of `ir.Frame`. `Time` and `Delay` are `time.Duration`
(nanosecond) values, `Index` a Go `int`. -/
structure Frame where
  time : Int
  delay : Int
  index : Int
  rows : List Row
  cursor : Cursor
deriving DecidableEq, Repr

instance : Inhabited Frame :=
  ⟨{ time := 0, delay := 0, index := 0, rows := [],
     cursor := { col := 0, row := 0, visible := false } }⟩

/-- Model of `attrsEqual` (pkg/ir/processor.go): field-wise comparison. -/
def attrsEqual (a b : CellAttrs) : Bool :=
  a.fg = b.fg && a.bg = b.bg && a.bold = b.bold && a.italic = b.italic &&
    a.underline = b.underline && a.dim = b.dim

/-- Model of `textRunsEqual`: text, start column and attributes. -/
def textRunsEqual (a b : TextRun) : Bool :=
  a.text = b.text && a.startCol = b.startCol && attrsEqual a.attrs b.attrs

/-- Model of the run-list comparison inside `rowsEqual`: the length check
followed by the element-wise loop. -/
def runListsEqual : List TextRun → List TextRun → Bool
  | [], [] => true
  | a :: as, b :: bs => textRunsEqual a b && runListsEqual as bs
  | _, _ => false

/-- Model of `rowsEqual`. -/
def rowsEqual (a b : Row) : Bool :=
  a.y = b.y && runListsEqual a.runs b.runs

/-- Model of the row-list comparison inside `framesEqual`. -/
def rowListsEqual : List Row → List Row → Bool
  | [], [] => true
  | a :: as, b :: bs => rowsEqual a b && rowListsEqual as bs
  | _, _ => false

/-- Model of `framesEqual` (content comparison: cursor and rows, never
timing or index). -/
def framesEqual (a b : Frame) : Bool :=
  a.cursor = b.cursor && rowListsEqual a.rows b.rows

/-- The visible content of a frame: exactly the data `framesEqual`
compares. -/
def frameContent (f : Frame) : List Row × Cursor :=
  (f.rows, f.cursor)

/-! ## Frame deduplication (pkg/ir snapshot, `deduplicateFrames`) -/

/-- Model of the main loop of `deduplicateFrames`: `prev` is the retained
frame currently accumulating delays (the Go code mutates it in place inside
`deduped`); a content-equal frame is dropped into it, a different frame is
emitted and becomes the new retained frame. -/
def dedupLoop : Frame → List Frame → List Frame
  | prev, [] => [prev]
  | prev, f :: rest =>
    if framesEqual prev f then
      dedupLoop { prev with delay := prev.delay + f.delay, time := f.time } rest
    else
      prev :: dedupLoop f rest

/-- Model of the renumbering loop of `deduplicateFrames`, with the loop
counter made explicit. -/
def renumberAux (i : Nat) : List Frame → List Frame
  | [] => []
  | f :: rest => { f with index := (i : Int) } :: renumberAux (i + 1) rest

/-- Model of the renumbering loop of `deduplicateFrames`: `Index` fields
are rewritten to the position in the deduplicated slice. -/
def renumber (l : List Frame) : List Frame :=
  renumberAux 0 l

/-- Model of `deduplicateFrames`. Inputs of length at most one are
returned unchanged (the early `len(frames) <= 1` return). -/
def deduplicateFrames (frames : List Frame) : List Frame :=
  if frames.length ≤ 1 then frames
  else
    match frames with
    | [] => frames
    | f :: rest => renumber (dedupLoop f rest)

/-! ## Specification-side group decomposition

The frame-deduplicator contract in the spec speaks of groups of
consecutive visually identical frames. `groupFrames` is that
decomposition: maximal runs of consecutive frames with equal content.
`mergeGroup` is the contract's merged frame: the group's first frame
holding the group's total delay, the group's last absolute time. -/

/-- Maximal runs of consecutive content-equal frames. -/
def groupFrames : List Frame → List (List Frame)
  | [] => []
  | f :: rest =>
    match groupFrames rest with
    | [] => [[f]]
    | g :: gs =>
      if framesEqual f g.headI then (f :: g) :: gs else [f] :: g :: gs

/-- Absolute time of the last frame of a group (0 for the empty list,
which never occurs in a group decomposition). -/
def lastTime : List Frame → Int
  | [] => 0
  | [f] => f.time
  | _ :: f :: rest => lastTime (f :: rest)

/-- The merged frame a group contributes: first frame's content and index,
total delay, last frame's absolute time. -/
def mergeGroup (g : List Frame) : Frame :=
  { g.headI with
      delay := (g.map Frame.delay).sum,
      time := lastTime g }

/-! ## Basic equality lemmas

The Go comparison helpers are literally structural equality on the
compared fields; these lemmas record that. -/

theorem attrsEqual_iff (a b : CellAttrs) : attrsEqual a b = true ↔ a = b := by
  cases a; cases b
  simp [attrsEqual, and_assoc]

theorem textRunsEqual_iff (a b : TextRun) : textRunsEqual a b = true ↔ a = b := by
  cases a; cases b
  simp [textRunsEqual, attrsEqual_iff, and_assoc]

theorem runListsEqual_iff (as bs : List TextRun) :
    runListsEqual as bs = true ↔ as = bs := by
  induction as generalizing bs with
  | nil => cases bs <;> simp [runListsEqual]
  | cons a as ih =>
    cases bs with
    | nil => simp [runListsEqual]
    | cons b bs => simp [runListsEqual, textRunsEqual_iff, ih]

theorem rowsEqual_iff (a b : Row) : rowsEqual a b = true ↔ a = b := by
  cases a; cases b
  simp [rowsEqual, runListsEqual_iff, and_assoc]

theorem rowListsEqual_iff (as bs : List Row) :
    rowListsEqual as bs = true ↔ as = bs := by
  induction as generalizing bs with
  | nil => cases bs <;> simp [rowListsEqual]
  | cons a as ih =>
    cases bs with
    | nil => simp [rowListsEqual]
    | cons b bs => simp [rowListsEqual, rowsEqual_iff, ih]

/-- `framesEqual` is exactly equality of visible content. -/
theorem framesEqual_iff (a b : Frame) :
    framesEqual a b = true ↔ frameContent a = frameContent b := by
  simp [framesEqual, rowListsEqual_iff, frameContent, Prod.ext_iff, and_comm]

/-- `framesEqual` only looks at `frameContent`, left argument. -/
theorem framesEqual_congr_left {a b : Frame} (h : frameContent a = frameContent b)
    (x : Frame) : framesEqual a x = framesEqual b x := by
  have h1 := framesEqual_iff a x
  have h2 := framesEqual_iff b x
  rw [h] at h1
  cases hax : framesEqual a x <;> cases hbx : framesEqual b x <;> simp_all

/-- Delay/time updates do not change the visible content. -/
theorem frameContent_update (f : Frame) (d t : Int) :
    frameContent { f with delay := d, time := t } = frameContent f := rfl

/-- `framesEqual` is symmetric. -/
theorem framesEqual_comm (a b : Frame) : framesEqual a b = framesEqual b a := by
  have h1 := framesEqual_iff a b
  have h2 := framesEqual_iff b a
  cases hab : framesEqual a b <;> cases hba : framesEqual b a
  · rfl
  · rw [hba] at h2
    have h3 := h1.mpr (h2.mp rfl).symm
    rw [hab] at h3; exact h3
  · rw [hab] at h1
    have h3 := h2.mpr (h1.mp rfl).symm
    rw [hba] at h3; exact h3.symm
  · rfl

/-- `framesEqual` only looks at `frameContent`, right argument. -/
theorem framesEqual_congr_right {a b : Frame} (h : frameContent a = frameContent b)
    (x : Frame) : framesEqual x a = framesEqual x b := by
  rw [framesEqual_comm x a, framesEqual_comm x b]
  exact framesEqual_congr_left h x

/-! ## Group decomposition lemmas -/

/-- Unfolding `groupFrames` on a cons, given the decomposition of the tail. -/
theorem groupFrames_cons (x : Frame) {l g : List Frame} {gs : List (List Frame)}
    (h : groupFrames l = g :: gs) :
    groupFrames (x :: l) =
      if framesEqual x g.headI then (x :: g) :: gs else [x] :: g :: gs := by
  cases l with
  | nil => simp [groupFrames] at h
  | cons y ys => rw [groupFrames, h]

/-- The first group produced for a nonempty list starts with its head. -/
theorem groupFrames_cons_shape (f : Frame) (l : List Frame) :
    ∃ t gs, groupFrames (f :: l) = (f :: t) :: gs := by
  cases hl : groupFrames l with
  | nil =>
    refine ⟨[], [], ?_⟩
    cases l with
    | nil => rfl
    | cons y ys => rw [groupFrames, hl]
  | cons g gs =>
    by_cases h : framesEqual f g.headI
    · exact ⟨g, gs, by rw [groupFrames_cons f hl]; simp [h]⟩
    · exact ⟨[], g :: gs, by rw [groupFrames_cons f hl]; simp [h]⟩

/-- Content-equal heads group the tail identically. -/
theorem groupFrames_cons_congr {a b : Frame} (h : frameContent a = frameContent b)
    (l : List Frame) :
    ∃ t gs, groupFrames (a :: l) = (a :: t) :: gs ∧
      groupFrames (b :: l) = (b :: t) :: gs := by
  cases hl : groupFrames l with
  | nil =>
    refine ⟨[], [], ?_, ?_⟩ <;>
      · cases l with
        | nil => rfl
        | cons y ys => rw [groupFrames, hl]
  | cons g gs =>
    have hcond := framesEqual_congr_left h g.headI
    by_cases hb : framesEqual b g.headI
    · have ha : framesEqual a g.headI = true := by rw [hcond, hb]
      exact ⟨g, gs, by rw [groupFrames_cons a hl]; simp [ha],
        by rw [groupFrames_cons b hl]; simp [hb]⟩
    · rw [Bool.not_eq_true] at hb
      have ha : framesEqual a g.headI = false := hcond.trans hb
      exact ⟨[], g :: gs, by rw [groupFrames_cons a hl]; simp [ha],
        by rw [groupFrames_cons b hl]; simp [hb]⟩

/-- A singleton group merges to its only frame. -/
theorem mergeGroup_singleton (f : Frame) : mergeGroup [f] = f := by
  simp [mergeGroup, lastTime]

/-- Merging after accumulating one dropped frame into the retained head is
merging the larger group. -/
theorem mergeGroup_step (prev f : Frame) (t : List Frame) :
    mergeGroup ({ prev with delay := prev.delay + f.delay, time := f.time } :: t)
      = mergeGroup (prev :: f :: t) := by
  cases t with
  | nil => simp [mergeGroup, lastTime]
  | cons x xs => simp [mergeGroup, lastTime, add_assoc]

/-- The dedup loop computes exactly the merged group decomposition. -/
theorem dedupLoop_eq_groups :
    ∀ (l : List Frame) (prev : Frame),
      dedupLoop prev l = (groupFrames (prev :: l)).map mergeGroup := by
  intro l
  induction l with
  | nil =>
    intro prev
    simp [dedupLoop, groupFrames, mergeGroup_singleton]
  | cons f rest ih =>
    intro prev
    by_cases hpf : framesEqual prev f
    · have hcontent : frameContent prev = frameContent f := (framesEqual_iff _ _).mp hpf
      have hcontent' :
          frameContent { prev with delay := prev.delay + f.delay, time := f.time }
            = frameContent f := by
        rw [frameContent_update]; exact hcontent
      obtain ⟨t, gs, h1, h2⟩ := groupFrames_cons_congr hcontent' rest
      obtain ⟨t2, gs2, h3⟩ := groupFrames_cons_shape f rest
      rw [h2] at h3
      have ht : t = t2 := by injection (List.cons.inj h3).1
      have hgs : gs = gs2 := (List.cons.inj h3).2
      subst ht; subst hgs
      rw [dedupLoop, if_pos hpf, ih, h1, groupFrames_cons prev h2]
      simp only [List.headI, hpf, if_true]
      simp [List.map_cons, mergeGroup_step]
    · rw [Bool.not_eq_true] at hpf
      obtain ⟨t, gs, h2⟩ := groupFrames_cons_shape f rest
      rw [dedupLoop, if_neg (by simp [hpf]), ih, groupFrames_cons prev h2, h2]
      simp [hpf, mergeGroup_singleton]

/-- Groups flatten back to the input list. -/
theorem groupFrames_flatten : ∀ l : List Frame, (groupFrames l).flatten = l := by
  intro l
  induction l with
  | nil => rfl
  | cons f rest ih =>
    cases hl : groupFrames rest with
    | nil =>
      cases rest with
      | nil => rfl
      | cons y ys =>
        obtain ⟨t, gs, h⟩ := groupFrames_cons_shape y ys
        rw [h] at hl; cases hl
    | cons g gs =>
      rw [groupFrames_cons f hl]
      rw [hl] at ih
      by_cases h : framesEqual f g.headI
      · simp only [h, if_true, List.flatten_cons]
        simp only [List.flatten_cons] at ih
        simp [ih]
      · simp only [List.flatten_cons] at ih
        simp [h, ih]

/-- Adjacent groups have content-different head frames. -/
theorem groupFrames_chain :
    ∀ l : List Frame,
      List.Chain' (fun g1 g2 => framesEqual g1.headI g2.headI = false)
        (groupFrames l) := by
  intro l
  induction l with
  | nil => simp [groupFrames]
  | cons f rest ih =>
    cases hl : groupFrames rest with
    | nil =>
      cases rest with
      | nil => simp [groupFrames]
      | cons y ys =>
        obtain ⟨t, gs, h⟩ := groupFrames_cons_shape y ys
        rw [h] at hl; cases hl
    | cons g gs =>
      rw [groupFrames_cons f hl]
      rw [hl] at ih
      by_cases h : framesEqual f g.headI
      · have hcontent : frameContent f = frameContent g.headI :=
          (framesEqual_iff _ _).mp h
        simp only [h, if_true]
        cases gs with
        | nil => simp
        | cons g2 gs2 =>
          rw [List.chain'_cons] at ih ⊢
          constructor
          · show framesEqual f g2.headI = false
            rw [framesEqual_congr_left hcontent g2.headI]
            exact ih.1
          · exact ih.2
      · rw [Bool.not_eq_true] at h
        simp only [h, Bool.false_eq_true, if_false]
        rw [List.chain'_cons]
        exact ⟨h, ih⟩

/-! ## Renumbering lemmas -/

theorem renumberAux_map_content : ∀ (l : List Frame) (i : Nat),
    (renumberAux i l).map frameContent = l.map frameContent := by
  intro l
  induction l with
  | nil => intro i; rfl
  | cons f rest ih =>
    intro i
    simp only [renumberAux, List.map_cons, ih]
    rfl

theorem renumberAux_length : ∀ (l : List Frame) (i : Nat),
    (renumberAux i l).length = l.length := by
  intro l
  induction l with
  | nil => intro i; rfl
  | cons f rest ih => intro i; simp [renumberAux, ih]

theorem renumberAux_overwrite : ∀ (l : List Frame) (i j : Nat),
    renumberAux i (renumberAux j l) = renumberAux i l := by
  intro l
  induction l with
  | nil => intro i j; rfl
  | cons f rest ih => intro i j; simp [renumberAux, ih]

theorem renumber_renumber (l : List Frame) : renumber (renumber l) = renumber l :=
  renumberAux_overwrite l 0 0

theorem renumberAux_indices : ∀ (l : List Frame) (i : Nat),
    (renumberAux i l).map Frame.index = (List.range' i l.length).map Int.ofNat := by
  intro l
  induction l with
  | nil => intro i; rfl
  | cons f rest ih =>
    intro i
    simp only [renumberAux, List.map_cons, ih, List.length_cons, List.range'_succ,
      List.map_cons]
    rfl

/-! ## The deduplicator contract, stated from the spec

`dedupSpec` is the contract of section 4.4 of the spec, written from its
words: decompose the input into maximal groups of consecutive visually
identical frames; each group is represented by its first frame, carrying
the sum of the group's delays and the last group member's absolute time;
indices are then dense from 0 in order. -/

/-- Merged groups with dense indices starting at `i`. -/
def dedupSpecAux (i : Nat) : List (List Frame) → List Frame
  | [] => []
  | g :: gs => { mergeGroup g with index := (i : Int) } :: dedupSpecAux (i + 1) gs

/-- The deduplicator contract as stated in the spec. -/
def dedupSpec (frames : List Frame) : List Frame :=
  dedupSpecAux 0 (groupFrames frames)

theorem renumberAux_map_mergeGroup :
    ∀ (gl : List (List Frame)) (i : Nat),
      renumberAux i (gl.map mergeGroup) = dedupSpecAux i gl := by
  intro gl
  induction gl with
  | nil => intro i; rfl
  | cons g gs ih => intro i; simp [renumberAux, dedupSpecAux, List.map_cons, ih]

/-- The spec's phrase for two frames that render the same pixels. -/
def visuallyIdentical (a b : Frame) : Prop :=
  a.cursor = b.cursor ∧ a.rows = b.rows

instance (a b : Frame) : Decidable (visuallyIdentical a b) := by
  unfold visuallyIdentical; infer_instance

theorem visuallyIdentical_iff_content (a b : Frame) :
    visuallyIdentical a b ↔ frameContent a = frameContent b := by
  simp [visuallyIdentical, frameContent, Prod.ext_iff, and_comm]

theorem framesEqual_eq_false_iff (a b : Frame) :
    framesEqual a b = false ↔ ¬ visuallyIdentical a b := by
  rw [visuallyIdentical_iff_content]
  constructor
  · intro h hc
    rw [(framesEqual_iff a b).mpr hc] at h
    cases h
  · intro h
    cases hab : framesEqual a b
    · rfl
    · exact absurd ((framesEqual_iff a b).mp hab) h

/-- Content of the merged frame is the content of the group's head. -/
theorem frameContent_mergeGroup (g : List Frame) :
    frameContent (mergeGroup g) = frameContent g.headI := rfl

/-- Adjacent-content chains transfer along content-preserving maps. -/
theorem chain'_contentNe_of_map {l m : List Frame}
    (h : l.map frameContent = m.map frameContent)
    (hm : List.Chain' (fun a b => frameContent a ≠ frameContent b) m) :
    List.Chain' (fun a b => frameContent a ≠ frameContent b) l := by
  have h1 := (@List.chain'_map _ _ (fun x y : List Row × Cursor => x ≠ y)
    frameContent m).mpr hm
  rw [← h] at h1
  exact (@List.chain'_map _ _ (fun x y : List Row × Cursor => x ≠ y)
    frameContent l).mp h1

/-- The output of the dedup loop never has two consecutive content-equal
frames. -/
theorem dedupLoop_chain (prev : Frame) (l : List Frame) :
    List.Chain' (fun a b => frameContent a ≠ frameContent b) (dedupLoop prev l) := by
  rw [dedupLoop_eq_groups]
  have hchain := groupFrames_chain (prev :: l)
  rw [List.chain'_map]
  refine List.Chain'.imp ?_ hchain
  intro g1 g2 h
  rw [frameContent_mergeGroup, frameContent_mergeGroup]
  intro hc
  rw [(framesEqual_iff _ _).mpr hc] at h
  cases h

/-- On a list with no adjacent content-equal frames the dedup loop is the
identity. -/
theorem dedupLoop_of_chain :
    ∀ (t : List Frame) (a : Frame),
      List.Chain' (fun x y => frameContent x ≠ frameContent y) (a :: t) →
      dedupLoop a t = a :: t := by
  intro t
  induction t with
  | nil => intro a _; rfl
  | cons b t' ih =>
    intro a h
    rw [List.chain'_cons] at h
    have hab : framesEqual a b = false := by
      cases hab : framesEqual a b
      · rfl
      · exact absurd ((framesEqual_iff a b).mp hab) h.1
    rw [dedupLoop, if_neg (by simp [hab]), ih b h.2]

/-! ## Behaviour of `deduplicateFrames` -/

theorem deduplicateFrames_short {frames : List Frame} (h : frames.length ≤ 1) :
    deduplicateFrames frames = frames := by
  simp [deduplicateFrames, h]

theorem deduplicateFrames_long (f : Frame) (rest : List Frame) (h : rest ≠ []) :
    deduplicateFrames (f :: rest) = renumber (dedupLoop f rest) := by
  have hlen : ¬ (f :: rest).length ≤ 1 := by
    cases rest with
    | nil => exact absurd rfl h
    | cons g r => simp [List.length_cons]
  rw [deduplicateFrames, if_neg hlen]

theorem deduplicateFrames_eq_dedupSpec (frames : List Frame)
    (h : 2 ≤ frames.length) : deduplicateFrames frames = dedupSpec frames := by
  cases frames with
  | nil => simp at h
  | cons f rest =>
    cases rest with
    | nil => simp at h
    | cons g r =>
      rw [deduplicateFrames_long f (g :: r) (by simp), dedupLoop_eq_groups,
        renumber, renumberAux_map_mergeGroup]
      rfl

theorem deduplicateFrames_contentChain (frames : List Frame) :
    List.Chain' (fun a b => frameContent a ≠ frameContent b)
      (deduplicateFrames frames) := by
  cases frames with
  | nil => simp [deduplicateFrames]
  | cons f rest =>
    cases rest with
    | nil => simp [deduplicateFrames]
    | cons g r =>
      rw [deduplicateFrames_long f (g :: r) (by simp)]
      exact chain'_contentNe_of_map (renumberAux_map_content _ 0)
        (dedupLoop_chain f (g :: r))

theorem deduplicateFrames_map_content (frames : List Frame) :
    (deduplicateFrames frames).map frameContent
      = (groupFrames frames).map (fun g => frameContent g.headI) := by
  cases frames with
  | nil => simp [deduplicateFrames, groupFrames]
  | cons f rest =>
    cases rest with
    | nil => simp [deduplicateFrames, groupFrames]
    | cons g r =>
      rw [deduplicateFrames_long f (g :: r) (by simp), renumber,
        renumberAux_map_content, dedupLoop_eq_groups, List.map_map]
      rfl

theorem deduplicateFrames_head (frames : List Frame) (h : frames ≠ []) :
    deduplicateFrames frames ≠ [] ∧
      frameContent (deduplicateFrames frames).headI = frameContent frames.headI := by
  cases frames with
  | nil => exact absurd rfl h
  | cons f rest =>
    cases rest with
    | nil => simp [deduplicateFrames]
    | cons g r =>
      rw [deduplicateFrames_long f (g :: r) (by simp), dedupLoop_eq_groups]
      obtain ⟨t, gs, hshape⟩ := groupFrames_cons_shape f (g :: r)
      rw [hshape]
      simp only [List.map_cons, renumber, renumberAux]
      exact ⟨by simp, rfl⟩

/-! ## Claim C1 -/

/-- A one-frame input whose index is not 0; `deduplicateFrames` returns it
unchanged. -/
def indexOneFrame : Frame :=
  { time := 0, delay := 0, index := 1, rows := [],
    cursor := { col := 0, row := 0, visible := false } }

/-- C1 counterexample: on the one-frame sequence `[indexOneFrame]` (whose
frame has index 1) the deduplicator returns the frame unchanged, so the
output index fields are not dense and sequential from 0 as the claim
demands: the early `len(frames) <= 1` return skips the renumbering loop. -/
theorem claim1_index_counterexample :
    (deduplicateFrames [indexOneFrame]).map Frame.index ≠
      (List.range (deduplicateFrames [indexOneFrame]).length).map Int.ofNat := by
  decide

/-- C1 (amended): for every frame sequence, the deduplicator output has no
two consecutive visually identical frames (cursor equal and row/run/attr
sequences equal), and the first frame is never dropped (the first output
frame has the first input frame's content). For inputs with at least two
frames the output is exactly the spec contract `dedupSpec`: one frame per
maximal group of consecutive visually identical frames, carrying the
group head's content, the sum of the group's delays (each dropped frame's
delay incremented into the retained frame), the last group member's
absolute time, and index fields renumbered dense and sequential from 0.
Amendment forced by the counterexample: inputs of length at most one are
returned unchanged, so their index fields are not renumbered. -/
theorem claim1_frame_dedup_contract (frames : List Frame) :
    List.Chain' (fun a b => ¬ visuallyIdentical a b) (deduplicateFrames frames)
    ∧ (frames ≠ [] →
        deduplicateFrames frames ≠ [] ∧
          visuallyIdentical (deduplicateFrames frames).headI frames.headI)
    ∧ (2 ≤ frames.length → deduplicateFrames frames = dedupSpec frames)
    ∧ (2 ≤ frames.length →
        (deduplicateFrames frames).map Frame.index =
          (List.range (deduplicateFrames frames).length).map Int.ofNat) := by
  refine ⟨?_, ?_, deduplicateFrames_eq_dedupSpec frames, ?_⟩
  · refine List.Chain'.imp ?_ (deduplicateFrames_contentChain frames)
    intro a b h hv
    exact h ((visuallyIdentical_iff_content a b).mp hv)
  · intro h
    obtain ⟨h1, h2⟩ := deduplicateFrames_head frames h
    exact ⟨h1, (visuallyIdentical_iff_content _ _).mpr h2⟩
  · intro h
    cases frames with
    | nil => simp at h
    | cons f rest =>
      cases rest with
      | nil => simp at h
      | cons g r =>
        rw [deduplicateFrames_long f (g :: r) (by simp), renumber,
          renumberAux_indices, renumberAux_length, List.range_eq_range']

/-- C1 witness: a concrete two-frame sequence with identical content; the
second frame is dropped into the first, delays add up, the time advances,
and the single surviving frame gets index 0. -/
def wFrameA : Frame :=
  { time := 10, delay := 5, index := 0, rows := [],
    cursor := { col := 0, row := 0, visible := false } }

def wFrameB : Frame :=
  { time := 20, delay := 7, index := 1, rows := [],
    cursor := { col := 0, row := 0, visible := false } }

theorem claim1_witness :
    (deduplicateFrames [wFrameA, wFrameB] ≠ [] ∧
        visuallyIdentical (deduplicateFrames [wFrameA, wFrameB]).headI
          ([wFrameA, wFrameB] : List Frame).headI)
    ∧ deduplicateFrames [wFrameA, wFrameB] = dedupSpec [wFrameA, wFrameB]
    ∧ (deduplicateFrames [wFrameA, wFrameB]).map Frame.index =
        (List.range (deduplicateFrames [wFrameA, wFrameB]).length).map Int.ofNat := by
  refine ⟨?_, ?_, ?_⟩
  · exact (claim1_frame_dedup_contract [wFrameA, wFrameB]).2.1 (by decide)
  · exact (claim1_frame_dedup_contract [wFrameA, wFrameB]).2.2.1 (by decide)
  · exact (claim1_frame_dedup_contract [wFrameA, wFrameB]).2.2.2 (by decide)

/-! ## Claim C6 -/

/-- C6: frame deduplication is idempotent. Applying `deduplicateFrames` to
its own output returns that output unchanged, with all fields (content,
time, delay and index) equal. -/
theorem claim6_dedup_idempotent (frames : List Frame) :
    deduplicateFrames (deduplicateFrames frames) = deduplicateFrames frames := by
  by_cases h1 : frames.length ≤ 1
  · rw [deduplicateFrames_short h1]
    exact deduplicateFrames_short h1
  · cases frames with
    | nil => simp at h1
    | cons f rest =>
      cases rest with
      | nil => simp at h1
      | cons g r =>
        have hy : deduplicateFrames (f :: g :: r) = renumber (dedupLoop f (g :: r)) :=
          deduplicateFrames_long f (g :: r) (by simp)
        by_cases h2 : (deduplicateFrames (f :: g :: r)).length ≤ 1
        · exact deduplicateFrames_short h2
        · cases hout : deduplicateFrames (f :: g :: r) with
          | nil => rw [hout] at h2; simp at h2
          | cons y1 yt =>
            cases yt with
            | nil => rw [hout] at h2; simp at h2
            | cons y2 yr =>
              have hchain := deduplicateFrames_contentChain (f :: g :: r)
              rw [hout] at hchain
              rw [deduplicateFrames_long y1 (y2 :: yr) (by simp),
                dedupLoop_of_chain (y2 :: yr) y1 hchain, ← hout, hy,
                renumber_renumber]

/-! ## Claim C10 -/

/-- C10: deduplication never alters visible content. Each output frame has
rows and cursor exactly equal to those of the first frame of the group of
consecutive visually identical input frames it represents (`groupFrames`,
whose flattening is the input); since a frame consists only of time,
delay, index, rows and cursor, only time, delay and index of a retained
frame may differ from the corresponding input frame. -/
theorem claim10_dedup_preserves_content (frames : List Frame) :
    (deduplicateFrames frames).map frameContent
      = (groupFrames frames).map (fun g => frameContent g.headI)
    ∧ (groupFrames frames).flatten = frames :=
  ⟨deduplicateFrames_map_content frames, groupFrames_flatten frames⟩

/-! ## GIF delay quantization (pkg/renderer/gif/renderer.go) -/

/-- Model of `Renderer.calculateDelay`. `delay` is a `time.Duration` in
nanoseconds; `Milliseconds()` is Go integer division (truncation toward
zero, `Int.tdiv`), `gifTimeUnit = 10`, `minGifDelay = 2`. -/
def calculateDelay (delay : Int) (frameIdx totalFrames : Int) : Int :=
  let d := (delay.tdiv 1000000).tdiv 10
  if d < 2 ∧ frameIdx < totalFrames - 1 then 2 else d

/-! ## Claim C5 -/

/-- C5: for every frame, the encoded GIF delay is the frame's delay
converted to hundredths of a second, with a minimum of 2 units enforced
for every frame except the last; and for a 5ms delay (5000000ns) on a
non-final frame the encoded delay is exactly 2 units, never less. -/
theorem claim5_gif_delay_quantization :
    (∀ delay frameIdx totalFrames : Int,
      calculateDelay delay frameIdx totalFrames =
        if frameIdx < totalFrames - 1 then
          max 2 ((delay.tdiv 1000000).tdiv 10)
        else (delay.tdiv 1000000).tdiv 10)
    ∧ calculateDelay 5000000 0 3 = 2 := by
  constructor
  · intro delay i n
    unfold calculateDelay
    by_cases h1 : i < n - 1
    · by_cases h2 : (delay.tdiv 1000000).tdiv 10 < 2
      · simp only [h1, h2, and_true, true_and, if_pos]
        omega
      · simp only [h1, h2, false_and, and_true, if_neg, if_false]
        omega
    · simp [h1]
  · decide

/-! ## GIF delta frames (pkg/renderer/gif/renderer.go) -/

/-- Model of `computeDelta` on the `Pix` arrays of two equally-sized
paletted frames: the delta starts all-transparent and each pixel that
differs from the previous frame is copied from the current frame, so
pixel i is `curr[i]` where the frames differ and `transparentIdx` where
they agree. -/
def computeDelta (prev curr : List Nat) (transparentIdx : Nat) : List Nat :=
  List.zipWith (fun p c => if p = c then transparentIdx else c) prev curr

/-- Compositing a delta frame over the previous frame, modelled from the
claim's wording (the GIF decoder with no-disposal semantics): each
transparent-index pixel of the delta is replaced by the previous frame's
pixel at that position. -/
def compositeOver (delta prev : List Nat) (transparentIdx : Nat) : List Nat :=
  List.zipWith (fun d p => if d = transparentIdx then p else d) delta prev

/-! ## Claim C3 -/

/-- C3 counterexample: previous frame `[1]`, current frame `[0]` with
transparent index 0 (the index the encoder passes). The frames are
equally sized and not pixel-identical, yet compositing the delta over the
previous frame yields `[1]`, not the current frame `[0]`: the changed
pixel's value equals the transparent index, so the decoder keeps the
previous pixel. -/
theorem claim3_roundtrip_counterexample :
    ([1] : List Nat).length = ([0] : List Nat).length
    ∧ ([1] : List Nat) ≠ [0]
    ∧ compositeOver (computeDelta [1] [0] 0) [1] 0 ≠ [0] := by
  decide

/-- C3 (amended): for every pair of equally-sized, not pixel-identical
paletted frames in which no pixel of the current frame that differs from
the previous frame carries the transparent index itself, compositing the
delta over the previous frame reproduces the current frame exactly.
Amendment forced by the counterexample: a changed pixel whose value is
the transparent index is indistinguishable from an unchanged pixel in
the delta, so such frames must be excluded. -/
theorem claim3_delta_roundtrip (prev curr : List Nat) (t : Nat)
    (hne : prev ≠ curr)
    (hsafe : List.Forall₂ (fun p c => c ≠ t ∨ p = c) prev curr) :
    compositeOver (computeDelta prev curr t) prev t = curr := by
  clear hne
  induction hsafe with
  | nil => rfl
  | cons h _ ih =>
    rename_i p c prevs currs _
    simp only [computeDelta, compositeOver, List.zipWith_cons_cons] at ih ⊢
    by_cases hpc : p = c
    · simp [hpc, ih]
    · rcases h with h | h
      · simp [hpc, h, ih]
      · exact absurd h hpc

theorem claim3_witness :
    ([1, 2] : List Nat) ≠ [1, 3]
    ∧ compositeOver (computeDelta [1, 2] [1, 3] 0) [1, 2] 0 = [1, 3] :=
  ⟨by decide,
    claim3_delta_roundtrip [1, 2] [1, 3] 0 (by decide) (by decide)⟩

/-! ## Paletted frame rendering (pkg/raster/paletted.go)

`renderSingleFrame` is modelled over abstract image and font-face types:
the claim is about its control flow on font-face load failure, not about
pixels. `loadResult` is the outcome of the `loadFontFace` call made
inside `renderSingleFrame`; `drawContent` stands for
`drawFrameContentToPaletted` and `copyBase` for
`copyPalettedBaseImage`. -/

/-- Model of `raster.PalettedFrame`: `Image` is a Go pointer, `nil`
(`none`) when font loading failed. -/
structure PalettedFrame (Img : Type) where
  image : Option Img
  delay : Int
  index : Nat
deriving DecidableEq, Repr

/-- Model of `palettedFrameRenderer.renderSingleFrame`: on font-face load
failure it returns an empty frame (nil image) carrying the delay and
index; otherwise it copies the base image, draws the frame content and
returns the result. -/
def renderSingleFrame {Face Img : Type} (loadResult : Option Face)
    (copyBase : Img → Img) (drawContent : Img → Frame → Face → Img)
    (idx : Nat) (frame : Frame) (delay : Int) (baseImg : Img) :
    PalettedFrame Img :=
  match loadResult with
  | none => { image := none, delay := delay, index := idx }
  | some face =>
    { image := some (drawContent (copyBase baseImg) frame face),
      delay := delay, index := idx }

/-- Model of the frame loop of `palettedFrameRenderer.render`, with the
loop counter explicit: every frame gets a result slot, rendered with that
frame's delay and index. `loadResult i` is the outcome of the
`loadFontFace` call made while rendering frame `i`. -/
def renderFramesAux {Face Img : Type} (loadResult : Nat → Option Face)
    (copyBase : Img → Img) (drawContent : Img → Frame → Face → Img)
    (baseImg : Img) (i : Nat) : List Frame → List (PalettedFrame Img)
  | [] => []
  | f :: rest =>
    renderSingleFrame (loadResult i) copyBase drawContent i f f.delay baseImg ::
      renderFramesAux loadResult copyBase drawContent baseImg (i + 1) rest

/-- Model of `palettedFrameRenderer.render` (the frame loop; dimensions
and base-image construction do not affect the failure behaviour). -/
def renderFrames {Face Img : Type} (loadResult : Nat → Option Face)
    (copyBase : Img → Img) (drawContent : Img → Frame → Face → Img)
    (baseImg : Img) (frames : List Frame) : List (PalettedFrame Img) :=
  renderFramesAux loadResult copyBase drawContent baseImg 0 frames

theorem renderFramesAux_length {Face Img : Type} (loadResult : Nat → Option Face)
    (copyBase : Img → Img) (drawContent : Img → Frame → Face → Img)
    (baseImg : Img) :
    ∀ (l : List Frame) (i : Nat),
      (renderFramesAux loadResult copyBase drawContent baseImg i l).length
        = l.length := by
  intro l
  induction l with
  | nil => intro i; rfl
  | cons f rest ih => intro i; simp [renderFramesAux, ih]

theorem renderFramesAux_get? {Face Img : Type} (loadResult : Nat → Option Face)
    (copyBase : Img → Img) (drawContent : Img → Frame → Face → Img)
    (baseImg : Img) :
    ∀ (l : List Frame) (j i : Nat),
      (renderFramesAux loadResult copyBase drawContent baseImg j l).get? i
        = (l.get? i).map fun f =>
            renderSingleFrame (loadResult (j + i)) copyBase drawContent (j + i) f
              f.delay baseImg := by
  intro l
  induction l with
  | nil => intro j i; rfl
  | cons f rest ih =>
    intro j i
    cases i with
    | zero => rfl
    | succ i' =>
      have harith : j + 1 + i' = j + (i' + 1) := by omega
      simp only [renderFramesAux, List.get?_cons_succ]
      rw [ih (j + 1) i', harith]

/-! ## Claim C9 -/

/-- C9 counterexample: a concrete frame rendered while the glyph-context
(font face) initialization fails. The cited code path returns an empty
result frame (`Image == nil`): no rendered image is produced for the
frame and no fallback to a shared glyph context happens, contradicting
the claim that the engine "still produces a rendered image for that
frame". -/
theorem claim9_font_fallback_counterexample :
    (renderSingleFrame (none : Option Unit) (id : List Nat → List Nat)
        (fun img _ _ => img) 0 (default : Frame) 5 [7]).image = none := by
  rfl

/-- C9 (amended): a font-face initialization failure does not abort the
renderer and never loses a frame slot: the renderer produces a result
entry for every frame, each carrying the frame's delay and its index.
However, there is no fallback to a shared glyph context: when the load
for frame i fails, that frame's result has no image at all (`Image` is
nil); a rendered image is produced only when the load succeeds. What
consumers make of the nil image is outside this renderer and is not
claimed here. -/
theorem claim9_font_failure_behaviour {Face Img : Type}
    (loadResult : Nat → Option Face) (copyBase : Img → Img)
    (drawContent : Img → Frame → Face → Img) (baseImg : Img)
    (frames : List Frame) :
    ((renderFrames loadResult copyBase drawContent baseImg frames).length
        = frames.length)
    ∧ (∀ i : Nat, ∀ f : Frame, frames.get? i = some f →
        (renderFrames loadResult copyBase drawContent baseImg frames).get? i
          = some (renderSingleFrame (loadResult i) copyBase drawContent i f
              f.delay baseImg))
    ∧ (∀ (idx : Nat) (frame : Frame) (delay : Int),
        renderSingleFrame (none : Option Face) copyBase drawContent idx frame
            delay baseImg
          = { image := none, delay := delay, index := idx })
    ∧ (∀ (face : Face) (idx : Nat) (frame : Frame) (delay : Int),
        renderSingleFrame (some face) copyBase drawContent idx frame delay
            baseImg
          = { image := some (drawContent (copyBase baseImg) frame face),
              delay := delay, index := idx }) := by
  refine ⟨renderFramesAux_length _ _ _ _ frames 0, ?_, ?_, ?_⟩
  · intro i f hf
    rw [renderFrames, renderFramesAux_get? _ _ _ _ frames 0 i, hf]
    simp [Nat.zero_add]
  · intro idx frame delay; rfl
  · intro face idx frame delay; rfl

theorem claim9_witness :
    (renderFrames (fun _ => (none : Option Unit)) (id : List Nat → List Nat)
        (fun img _ _ => img) [7] [default]).get? 0
      = some { image := none, delay := (default : Frame).delay, index := 0 } := by
  have h := (claim9_font_failure_behaviour (fun _ => (none : Option Unit))
    (id : List Nat → List Nat) (fun img _ _ => img) [7] [default]).2.1 0 default
    (by rfl)
  rw [h]
  rfl

/-! ## Event preprocessing (pkg/ir/processor.go, `preprocessEvents`)

`Event.Time` is a Go `float64` holding seconds. The preprocessing claim
only compares timestamps for equality and against constants; non-NaN
float64 values embed injectively into `ℚ` with the same equality and
order, so the timestamp is modelled as `ℚ`. -/

/-- Model of `asciicast.Event`. -/
structure Event where
  time : ℚ
  eventType : String
  eventData : String
deriving DecidableEq, Repr

instance : Inhabited Event := ⟨{ time := 0, eventType := "", eventData := "" }⟩

/-- Model of the speed-adjustment step of `preprocessEvents`. -/
def applySpeed (speed : ℚ) (events : List Event) : List Event :=
  if speed ≠ 1 ∧ speed > 0 then
    events.map fun e => { e with time := e.time / speed }
  else events

/-- Model of the idle-time-cap step of `preprocessEvents`: when the delay
to the previous (already shifted) event exceeds the limit, this event and
all later ones are shifted back by the excess. -/
def capIdle (limit : ℚ) : ℚ → List Event → List Event
  | _, [] => []
  | prev, e :: rest =>
    let delay := e.time - prev
    if delay > limit then
      let reduction := delay - limit
      { e with time := e.time - reduction } ::
        capIdle limit (e.time - reduction)
          (rest.map fun x => { x with time := x.time - reduction })
    else
      e :: capIdle limit e.time rest
termination_by _ l => l.length
decreasing_by all_goals simp

/-- Model of the compression loop of `preprocessEvents`: `last` is the
most recently appended event (the Go code mutates it in place inside
`compressed`); an event with the same timestamp is merged into it by
appending its payload. -/
def compressLoop : Event → List Event → List Event
  | last, [] => [last]
  | last, e :: rest =>
    if e.time = last.time then
      compressLoop { last with eventData := last.eventData ++ e.eventData } rest
    else
      last :: compressLoop e rest

/-- Model of the compression step of `preprocessEvents`. -/
def compressEvents (events : List Event) : List Event :=
  match events with
  | [] => []
  | e :: rest => compressLoop e rest

/-- Model of `Processor.preprocessEvents`: speed scaling, then idle-time
capping (a limit of 0 disables it), then same-timestamp compression. The
input list is never mutated. -/
def preprocessEvents (speed : ℚ) (idleTimeLimit : ℚ) (compress : Bool)
    (events : List Event) : List Event :=
  let events1 := applySpeed speed events
  let events2 := if idleTimeLimit > 0 then capIdle idleTimeLimit 0 events1 else events1
  if compress then compressEvents events2 else events2

/-! ## Specification-side event grouping -/

/-- Maximal runs of consecutive events with equal timestamps. -/
def groupEvents : List Event → List (List Event)
  | [] => []
  | e :: rest =>
    match groupEvents rest with
    | [] => [[e]]
    | g :: gs =>
      if e.time = g.headI.time then (e :: g) :: gs else [e] :: g :: gs

/-- Concatenation of a list of Go strings. -/
def concatStrings : List String → String
  | [] => ""
  | s :: rest => s ++ concatStrings rest

/-- The merged event a group contributes: the group's first event with
the concatenation of all the group's payloads, in order. -/
def mergeEvents (g : List Event) : Event :=
  { g.headI with eventData := concatStrings (g.map Event.eventData) }

theorem groupEvents_cons (x : Event) {l g : List Event} {gs : List (List Event)}
    (h : groupEvents l = g :: gs) :
    groupEvents (x :: l) =
      if x.time = g.headI.time then (x :: g) :: gs else [x] :: g :: gs := by
  cases l with
  | nil => simp [groupEvents] at h
  | cons y ys => rw [groupEvents, h]

theorem groupEvents_cons_shape (e : Event) (l : List Event) :
    ∃ t gs, groupEvents (e :: l) = (e :: t) :: gs := by
  cases hl : groupEvents l with
  | nil =>
    refine ⟨[], [], ?_⟩
    cases l with
    | nil => rfl
    | cons y ys => rw [groupEvents, hl]
  | cons g gs =>
    by_cases h : e.time = g.headI.time
    · exact ⟨g, gs, by rw [groupEvents_cons e hl]; simp [h]⟩
    · exact ⟨[], g :: gs, by rw [groupEvents_cons e hl]; simp [h]⟩

theorem groupEvents_cons_congr {a b : Event} (h : a.time = b.time)
    (l : List Event) :
    ∃ t gs, groupEvents (a :: l) = (a :: t) :: gs ∧
      groupEvents (b :: l) = (b :: t) :: gs := by
  cases hl : groupEvents l with
  | nil =>
    refine ⟨[], [], ?_, ?_⟩ <;>
      · cases l with
        | nil => rfl
        | cons y ys => rw [groupEvents, hl]
  | cons g gs =>
    by_cases hb : b.time = g.headI.time
    · have ha : a.time = g.headI.time := h.trans hb
      exact ⟨g, gs, by rw [groupEvents_cons a hl]; simp [ha],
        by rw [groupEvents_cons b hl]; simp [hb]⟩
    · have ha : ¬ a.time = g.headI.time := by rw [h]; exact hb
      exact ⟨[], g :: gs, by rw [groupEvents_cons a hl]; simp [ha],
        by rw [groupEvents_cons b hl]; simp [hb]⟩

theorem mergeEvents_singleton (e : Event) : mergeEvents [e] = e := by
  simp [mergeEvents, concatStrings]

theorem mergeEvents_step (last e : Event) (t : List Event) :
    mergeEvents ({ last with eventData := last.eventData ++ e.eventData } :: t)
      = mergeEvents (last :: e :: t) := by
  simp [mergeEvents, concatStrings, String.append_assoc]

/-- The compression loop computes exactly the merged group
decomposition. -/
theorem compressLoop_eq_groups :
    ∀ (l : List Event) (last : Event),
      compressLoop last l = (groupEvents (last :: l)).map mergeEvents := by
  intro l
  induction l with
  | nil =>
    intro last
    simp [compressLoop, groupEvents, mergeEvents_singleton]
  | cons e rest ih =>
    intro last
    by_cases hte : e.time = last.time
    · have hmerge :
          ({ last with eventData := last.eventData ++ e.eventData } : Event).time
            = e.time := hte.symm
      obtain ⟨t, gs, h1, h2⟩ := groupEvents_cons_congr hmerge rest
      obtain ⟨t2, gs2, h3⟩ := groupEvents_cons_shape e rest
      rw [h2] at h3
      have ht : t = t2 := by injection (List.cons.inj h3).1
      have hgs : gs = gs2 := (List.cons.inj h3).2
      subst ht; subst hgs
      rw [compressLoop, if_pos hte, ih, h1, groupEvents_cons last h2,
        if_pos (show last.time = (e :: t).headI.time from hte.symm)]
      simp [List.map_cons, mergeEvents_step]
    · obtain ⟨t, gs, h2⟩ := groupEvents_cons_shape e rest
      rw [compressLoop, if_neg hte, ih, groupEvents_cons last h2, h2]
      have : ¬ last.time = e.time := fun hc => hte hc.symm
      simp [this, mergeEvents_singleton]

/-! ## Claim C7 -/

/-- C7: with compression enabled the event preprocessor merges every run
of consecutive events sharing an identical timestamp into a single event
whose data is the concatenation of their payloads in order (stated as the
group decomposition of the compression stage, plus the fact that with
speed 1 and no idle cap the preprocessor is exactly that stage); in
particular the three events (0,"o","A"), (0,"o","B"), (1,"o","C") produce
exactly the two events (0,"o","AB") and (1,"o","C"). -/
theorem claim7_event_compression :
    (∀ events : List Event,
      compressEvents events = (groupEvents events).map mergeEvents)
    ∧ (∀ events : List Event,
      preprocessEvents 1 0 true events = compressEvents events)
    ∧ preprocessEvents 1 0 true
        [{ time := 0, eventType := "o", eventData := "A" },
         { time := 0, eventType := "o", eventData := "B" },
         { time := 1, eventType := "o", eventData := "C" }]
      = [{ time := 0, eventType := "o", eventData := "AB" },
         { time := 1, eventType := "o", eventData := "C" }] := by
  have hstage : ∀ events : List Event,
      preprocessEvents 1 0 true events = compressEvents events := by
    intro events
    unfold preprocessEvents applySpeed
    norm_num
  refine ⟨?_, hstage, ?_⟩
  · intro events
    cases events with
    | nil => rfl
    | cons e rest => exact compressLoop_eq_groups rest e
  · rw [hstage]
    decide

/-! ## Row capture and run grouping (pkg/ir/processor.go, `captureRow`)

A terminal row is the list of cells the oracle reports for columns
0..width-1. `cellToAttrs` registers the cell's colors in the shared
catalog (which therefore threads through the scan); the statistics
accumulator only receives writes and is omitted. -/

/-- Model of `terminal.Cell`. -/
structure Cell where
  char : Char
  foreground : Color
  background : Color
  bold : Bool
  italic : Bool
  underline : Bool
  dim : Bool
deriving DecidableEq, Repr

/-- Model of `Processor.cellToAttrs`: register foreground then background
in the catalog, copy the style flags. -/
def cellToAttrs (cell : Cell) (catalog : ColorCatalog) (palette : Palette) :
    CellAttrs × ColorCatalog :=
  let fgRes := register cell.foreground palette catalog
  let bgRes := register cell.background palette fgRes.2
  ({ fg := fgRes.1, bg := bgRes.1, bold := cell.bold, italic := cell.italic,
      underline := cell.underline, dim := cell.dim }, bgRes.2)

/-- Model of the column loop of `Processor.captureRow`: `x` is the column
of the next cell, `cur` the run being accumulated (`currentRun`), and the
final run is appended when the row ends. -/
def captureRowAux (palette : Palette) :
    List Cell → Nat → Option TextRun → ColorCatalog → List TextRun × ColorCatalog
  | [], _, none, cat => ([], cat)
  | [], _, some r, cat => ([r], cat)
  | cell :: cells, x, cur, cat =>
    let res := cellToAttrs cell cat palette
    match cur with
    | some r =>
      if attrsEqual r.attrs res.1 then
        captureRowAux palette cells (x + 1)
          (some { r with text := r.text ++ [cell.char] }) res.2
      else
        let tail := captureRowAux palette cells (x + 1)
          (some { text := [cell.char], startCol := x, attrs := res.1 }) res.2
        (r :: tail.1, tail.2)
    | none =>
      captureRowAux palette cells (x + 1)
        (some { text := [cell.char], startCol := x, attrs := res.1 }) res.2

/-- Model of `Processor.captureRow`. -/
def captureRow (palette : Palette) (cells : List Cell) (y : Nat)
    (catalog : ColorCatalog) : Row × ColorCatalog :=
  let res := captureRowAux palette cells 0 none catalog
  ({ y := y, runs := res.1 }, res.2)

/-- Column one past the end of the last run (0 for no runs). -/
def runsEnd : List TextRun → Nat
  | [] => 0
  | [r] => r.startCol + r.text.length
  | _ :: r :: rest => runsEnd (r :: rest)

/-- Invariant of the column loop when a run is open: the emitted runs
spell the open run's text followed by the remaining cells' characters,
start with the open run's attributes and start column, have pairwise
different adjacent attributes and increasing start columns, and the last
run ends at the right edge. -/
theorem captureRowAux_some (palette : Palette) :
    ∀ (cells : List Cell) (x : Nat) (r : TextRun) (cat : ColorCatalog),
      r.text ≠ [] →
      r.startCol + r.text.length = x →
      (((captureRowAux palette cells x (some r) cat).1.map TextRun.text).flatten
          = r.text ++ cells.map Cell.char)
      ∧ (captureRowAux palette cells x (some r) cat).1 ≠ []
      ∧ (captureRowAux palette cells x (some r) cat).1.headI.attrs = r.attrs
      ∧ (captureRowAux palette cells x (some r) cat).1.headI.startCol = r.startCol
      ∧ List.Chain' (fun r1 r2 => r1.attrs ≠ r2.attrs)
          (captureRowAux palette cells x (some r) cat).1
      ∧ List.Chain' (fun r1 r2 => r1.startCol < r2.startCol)
          (captureRowAux palette cells x (some r) cat).1
      ∧ runsEnd (captureRowAux palette cells x (some r) cat).1
          = x + cells.length := by
  intro cells
  induction cells with
  | nil =>
    intro x r cat hne hcol
    refine ⟨by simp [captureRowAux], by simp [captureRowAux], rfl, rfl, ?_, ?_, ?_⟩
    · simp [captureRowAux]
    · simp [captureRowAux]
    · simpa [captureRowAux, runsEnd] using hcol
  | cons cell cells ih =>
    intro x r cat hne hcol
    by_cases hattrs : attrsEqual r.attrs (cellToAttrs cell cat palette).1
    · have hfst : (captureRowAux palette (cell :: cells) x (some r) cat).1
          = (captureRowAux palette cells (x + 1)
              (some { r with text := r.text ++ [cell.char] })
              (cellToAttrs cell cat palette).2).1 := by
        rw [captureRowAux]
        simp [hattrs]
      have hstep := ih (x + 1) { r with text := r.text ++ [cell.char] }
        (cellToAttrs cell cat palette).2 (by simp)
        (by simp only [List.length_append, List.length_singleton]; omega)
      rw [hfst]
      refine ⟨?_, hstep.2.1, hstep.2.2.1, hstep.2.2.2.1, hstep.2.2.2.2.1,
        hstep.2.2.2.2.2.1, ?_⟩
      · rw [hstep.1]
        simp [List.append_assoc]
      · rw [hstep.2.2.2.2.2.2]
        simp only [List.length_cons]
        omega
    · have hfst : (captureRowAux palette (cell :: cells) x (some r) cat).1
          = r :: (captureRowAux palette cells (x + 1)
              (some { text := [cell.char], startCol := x,
                      attrs := (cellToAttrs cell cat palette).1 })
              (cellToAttrs cell cat palette).2).1 := by
        rw [captureRowAux]
        simp [hattrs]
      have hstep := ih (x + 1)
        { text := [cell.char], startCol := x,
          attrs := (cellToAttrs cell cat palette).1 }
        (cellToAttrs cell cat palette).2 (by simp) (by simp)
      obtain ⟨htext, hnil, hhattrs, hhcol, hchainA, hchainC, hend⟩ := hstep
      rw [hfst]
      cases htail : (captureRowAux palette cells (x + 1)
          (some { text := [cell.char], startCol := x,
                  attrs := (cellToAttrs cell cat palette).1 })
          (cellToAttrs cell cat palette).2).1 with
      | nil => exact absurd htail hnil
      | cons t1 ts =>
        rw [htail] at htext hhattrs hhcol hchainA hchainC hend
        have hrattrs : r.attrs ≠ t1.attrs := by
          intro hcontra
          have hra : r.attrs = (cellToAttrs cell cat palette).1 := by
            rw [hcontra]
            simpa using hhattrs
          exact absurd ((attrsEqual_iff _ _).mpr hra) (by simpa using hattrs)
        have hrcol : r.startCol < t1.startCol := by
          have ht1 : t1.startCol = x := by simpa using hhcol
          have hlen : 1 ≤ r.text.length := by
            cases htxt : r.text with
            | nil => exact absurd htxt hne
            | cons c cs => simp
          omega
        refine ⟨?_, by simp, rfl, rfl, ?_, ?_, ?_⟩
        · simp only [List.map_cons, List.flatten_cons] at htext ⊢
          simp [htext]
        · rw [List.chain'_cons]
          exact ⟨hrattrs, hchainA⟩
        · rw [List.chain'_cons]
          exact ⟨hrcol, hchainC⟩
        · simp only [runsEnd, List.length_cons]
          rw [show runsEnd (t1 :: ts) = (x + 1) + cells.length from hend]
          omega

/-! ## Claim C4 -/

/-- C4: for every captured row, concatenating the run texts in emission
order (which is strictly increasing start-column order, third conjunct)
reproduces the row's full character sequence for columns 0..width-1, and
no two adjacent runs have equal `CellAttrs`. This holds for every catalog
state and palette, including the catalog mutation during the scan. -/
theorem claim4_run_grouping (palette : Palette) (cells : List Cell) (y : Nat)
    (catalog : ColorCatalog) :
    ((((captureRow palette cells y catalog).1.runs.map TextRun.text).flatten)
        = cells.map Cell.char)
    ∧ List.Chain' (fun r1 r2 => r1.attrs ≠ r2.attrs)
        (captureRow palette cells y catalog).1.runs
    ∧ List.Chain' (fun r1 r2 => r1.startCol < r2.startCol)
        (captureRow palette cells y catalog).1.runs := by
  cases cells with
  | nil => refine ⟨rfl, ?_, ?_⟩ <;> simp [captureRow, captureRowAux]
  | cons cell cells =>
    have hruns : (captureRow palette (cell :: cells) y catalog).1.runs
        = (captureRowAux palette cells (0 + 1)
            (some { text := [cell.char], startCol := 0,
                    attrs := (cellToAttrs cell catalog palette).1 })
            (cellToAttrs cell catalog palette).2).1 := by
      show (captureRowAux palette (cell :: cells) 0 none catalog).1 = _
      rw [captureRowAux]
    have hstep := captureRowAux_some palette cells (0 + 1)
      { text := [cell.char], startCol := 0,
        attrs := (cellToAttrs cell catalog palette).1 }
      (cellToAttrs cell catalog palette).2 (by simp) (by simp)
    rw [hruns]
    refine ⟨?_, hstep.2.2.2.2.1, hstep.2.2.2.2.2.1⟩
    rw [hstep.1]
    rfl

/-! ## Claim C8 -/

/-- A color whose type is Default (theme-inherited). -/
def defaultColor : Color :=
  { ctype := ColorType.Default, index := 0, rgb := ⟨0, 0, 0, 0⟩ }

/-- A concrete all-zero palette for evaluation. -/
def zeroPalette : Palette := fun _ => ⟨0, 0, 0, 0⟩

/-- A fresh catalog with concrete theme defaults. -/
def testCatalog : ColorCatalog :=
  newColorCatalog ⟨255, 255, 255, 255⟩ ⟨0, 0, 0, 255⟩

/-- A visible letter cell with all-default styling. -/
def letterCell : Cell :=
  { char := 'a', foreground := defaultColor, background := defaultColor,
    bold := false, italic := false, underline := false, dim := false }

/-- A blank cell (space, no visible character), same styling. -/
def spaceCell : Cell := { letterCell with char := ' ' }

/-- C8 counterexample: a two-column row whose last cell is a blank with
default attributes, so its trailing span carries no visible character and
the last visibly occupied column is 0. `captureRow` nevertheless emits
the trailing blank inside the final run: the single emitted run has text
"a " and ends one past column 1 (`runsEnd = 2`), not at the last visibly
occupied column (which would give `runsEnd = 1`). -/
theorem claim8_trailing_run_counterexample :
    ((captureRow zeroPalette [letterCell, spaceCell] 0 testCatalog).1.runs.map
        (fun r => (r.text, r.startCol)) = [((['a', ' '] : List Char), 0)])
    ∧ runsEnd
        (captureRow zeroPalette [letterCell, spaceCell] 0 testCatalog).1.runs
      ≠ 1 := by
  decide

/-- C8 (amended): `captureRow` emits runs covering every column of the
row, trailing blank cells included: for every nonempty row the emitted
run list is nonempty and its last run extends exactly to the right edge
(`runsEnd` equals the width). No trailing span is suppressed; runs are
never dropped for carrying only blanks. -/
theorem claim8_trailing_cells_emitted (palette : Palette) (cells : List Cell)
    (y : Nat) (catalog : ColorCatalog) (h : cells ≠ []) :
    (captureRow palette cells y catalog).1.runs ≠ []
    ∧ runsEnd (captureRow palette cells y catalog).1.runs = cells.length := by
  cases cells with
  | nil => exact absurd rfl h
  | cons cell cells =>
    have hruns : (captureRow palette (cell :: cells) y catalog).1.runs
        = (captureRowAux palette cells (0 + 1)
            (some { text := [cell.char], startCol := 0,
                    attrs := (cellToAttrs cell catalog palette).1 })
            (cellToAttrs cell catalog palette).2).1 := by
      show (captureRowAux palette (cell :: cells) 0 none catalog).1 = _
      rw [captureRowAux]
    have hstep := captureRowAux_some palette cells (0 + 1)
      { text := [cell.char], startCol := 0,
        attrs := (cellToAttrs cell catalog palette).1 }
      (cellToAttrs cell catalog palette).2 (by simp) (by simp)
    rw [hruns]
    refine ⟨hstep.2.1, ?_⟩
    rw [hstep.2.2.2.2.2.2]
    simp only [List.length_cons]
    omega

theorem claim8_witness :
    (captureRow zeroPalette [letterCell, spaceCell] 0 testCatalog).1.runs ≠ []
    ∧ runsEnd
        (captureRow zeroPalette [letterCell, spaceCell] 0 testCatalog).1.runs
      = ([letterCell, spaceCell] : List Cell).length :=
  claim8_trailing_cells_emitted zeroPalette [letterCell, spaceCell] 0
    testCatalog (by decide)

/-! ## Association-list lemmas for the catalog maps -/

theorem assocGet_append_of_none {α β : Type} [DecidableEq α]
    {l : List (α × β)} {k : α} (h : assocGet l k = none) (l2 : List (α × β)) :
    assocGet (l ++ l2) k = assocGet l2 k := by
  induction l with
  | nil => rfl
  | cons e rest ih =>
    rw [assocGet] at h
    by_cases he : e.1 = k
    · rw [if_pos he] at h; cases h
    · rw [if_neg he] at h
      rw [List.cons_append, assocGet, if_neg he]
      exact ih h

theorem assocGet_append_of_some {α β : Type} [DecidableEq α]
    {l : List (α × β)} {k : α} {v : β} (h : assocGet l k = some v)
    (l2 : List (α × β)) : assocGet (l ++ l2) k = some v := by
  induction l with
  | nil => cases h
  | cons e rest ih =>
    rw [assocGet] at h
    by_cases he : e.1 = k
    · rw [if_pos he] at h
      rw [List.cons_append, assocGet, if_pos he]
      exact h
    · rw [if_neg he] at h
      rw [List.cons_append, assocGet, if_neg he]
      exact ih h

theorem assocGet_mem {α β : Type} [DecidableEq α]
    {l : List (α × β)} {k : α} {v : β} (h : assocGet l k = some v) :
    (k, v) ∈ l := by
  induction l with
  | nil => cases h
  | cons e rest ih =>
    rw [assocGet] at h
    by_cases he : e.1 = k
    · rw [if_pos he] at h
      cases h
      rw [← he, Prod.mk.eta]
      exact List.mem_cons_self e rest
    · rw [if_neg he] at h
      exact List.mem_cons_of_mem e (ih h)

theorem assocGet_of_all_ne {α β : Type} [DecidableEq α]
    {l : List (α × β)} {k : α} (h : ∀ e ∈ l, e.1 ≠ k) :
    assocGet l k = none := by
  induction l with
  | nil => rfl
  | cons e rest ih =>
    rw [assocGet, if_neg (h e (List.mem_cons_self e rest))]
    exact ih fun e' he' => h e' (List.mem_cons_of_mem e he')

/-- In a list whose second components have no duplicates, a value
determines its key. -/
theorem assoc_snd_inj {α β : Type} {l : List (α × β)}
    (hnodup : (l.map Prod.snd).Nodup) {k1 k2 : α} {v : β}
    (h1 : (k1, v) ∈ l) (h2 : (k2, v) ∈ l) : k1 = k2 := by
  induction l with
  | nil => cases h1
  | cons e rest ih =>
    obtain ⟨ea, eb⟩ := e
    rw [List.map_cons, List.nodup_cons] at hnodup
    rcases List.mem_cons.mp h1 with he1 | he1 <;>
      rcases List.mem_cons.mp h2 with he2 | he2
    · injection he1 with hk1 hv1
      injection he2 with hk2 hv2
      exact hk1.trans hk2.symm
    · injection he1 with hk1 hv1
      have hm : v ∈ rest.map Prod.snd := List.mem_map_of_mem Prod.snd he2
      rw [hv1] at hm
      exact absurd hm hnodup.1
    · injection he2 with hk2 hv2
      have hm : v ∈ rest.map Prod.snd := List.mem_map_of_mem Prod.snd he1
      rw [hv2] at hm
      exact absurd hm hnodup.1
    · exact ih hnodup.2 he1 he2

/-! ## Register case analysis and the no-wrap invariant -/

theorem register_default {col : Color} (palette : Palette) (c : ColorCatalog)
    (h : col.ctype = ColorType.Default) :
    register col palette c = (DefaultColorID, c) := by
  rw [register, if_pos h]

theorem register_hit {col : Color} {palette : Palette} {c : ColorCatalog}
    {id : Nat} (h : ¬ col.ctype = ColorType.Default)
    (hid : assocGet c.lookup (resolvedKey col palette) = some id) :
    register col palette c = (id, c) := by
  rw [register, if_neg h, hid]

theorem register_miss {col : Color} {palette : Palette} {c : ColorCatalog}
    (h : ¬ col.ctype = ColorType.Default)
    (hid : assocGet c.lookup (resolvedKey col palette) = none) :
    register col palette c =
      (c.nextID, { c with
        colors := assocSet c.colors c.nextID (toRGBA col palette),
        lookup := c.lookup ++ [(resolvedKey col palette, c.nextID)],
        nextID := (c.nextID + 1) % 65536 }) := by
  rw [register, if_neg h, hid]

/-- The no-wrap invariant of a catalog state: the assigned IDs, in
insertion (first-seen) order, are exactly 1, 2, ..., n, and the `uint16`
counter holds n + 1. It is maintained while the counter cannot wrap. -/
def CatOK (c : ColorCatalog) : Prop :=
  c.lookup.map Prod.snd = List.range' 1 c.lookup.length
  ∧ c.nextID = 1 + c.lookup.length

theorem catOK_new (fg bg : RGBA) : CatOK (newColorCatalog fg bg) := by
  constructor <;> rfl

/-- An ID found in the table of a no-wrap state lies in [1, n]. -/
theorem catOK_id_bounds {c : ColorCatalog} (hok : CatOK c) {k : ColorKey}
    {id : Nat} (h : assocGet c.lookup k = some id) :
    1 ≤ id ∧ id < 1 + c.lookup.length := by
  have hmem : (k, id) ∈ c.lookup := assocGet_mem h
  have hid : id ∈ c.lookup.map Prod.snd := List.mem_map_of_mem Prod.snd hmem
  rw [hok.1] at hid
  exact List.mem_range'_1.mp hid

/-- Registering preserves the invariant while the counter has room. -/
theorem register_catOK {c : ColorCatalog} (hok : CatOK c)
    (hroom : c.lookup.length + 2 < 65536) (col : Color) (palette : Palette) :
    CatOK (register col palette c).2 := by
  by_cases hdef : col.ctype = ColorType.Default
  · rw [register_default palette c hdef]; exact hok
  · cases hget : assocGet c.lookup (resolvedKey col palette) with
    | some id => rw [register_hit hdef hget]; exact hok
    | none =>
      rw [register_miss hdef hget]
      constructor
      · simp only [List.map_append, List.length_append, List.map_cons,
          List.map_nil, List.length_cons, List.length_nil]
        rw [hok.1, hok.2]
        rw [show c.lookup.length + (0 + 1) = c.lookup.length + 1 from by omega]
        rw [List.range'_concat]
        simp
      · simp only [List.length_append, List.length_cons, List.length_nil]
        rw [hok.2, Nat.mod_eq_of_lt (by omega)]
        omega

theorem register_length_le (col : Color) (palette : Palette) (c : ColorCatalog) :
    (register col palette c).2.lookup.length ≤ c.lookup.length + 1 := by
  by_cases hdef : col.ctype = ColorType.Default
  · rw [register_default palette c hdef]
    exact Nat.le_succ _
  · cases hget : assocGet c.lookup (resolvedKey col palette) with
    | some id =>
      rw [register_hit hdef hget]
      exact Nat.le_succ _
    | none => rw [register_miss hdef hget]; simp

/-- Every state reachable by at most 65533 additional registrations from a
no-wrap state keeps the invariant and grows by at most one entry per
call. -/
theorem registerAll_catOK :
    ∀ (cols : List Color) (palette : Palette) (c : ColorCatalog),
      CatOK c → c.lookup.length + cols.length ≤ 65533 →
      CatOK (registerAll palette cols c) ∧
        (registerAll palette cols c).lookup.length
          ≤ c.lookup.length + cols.length := by
  intro cols
  induction cols with
  | nil => intro palette c hok hlen; exact ⟨hok, Nat.le_refl _⟩
  | cons col rest ih =>
    intro palette c hok hlen
    simp only [List.length_cons] at hlen
    have hok' : CatOK (register col palette c).2 :=
      register_catOK hok (by omega) col palette
    have hle : (register col palette c).2.lookup.length ≤ c.lookup.length + 1 :=
      register_length_le col palette c
    have hrec := ih palette (register col palette c).2 hok' (by omega)
    refine ⟨hrec.1, ?_⟩
    calc (registerAll palette rest (register col palette c).2).lookup.length
      ≤ (register col palette c).2.lookup.length + rest.length := hrec.2
    _ ≤ c.lookup.length + (rest.length + 1) := by omega

theorem registerAll_cons (palette : Palette) (col : Color) (rest : List Color)
    (c : ColorCatalog) :
    registerAll palette (col :: rest) c
      = registerAll palette rest (register col palette c).2 := rfl

theorem registerAll_append (palette : Palette) (l1 l2 : List Color)
    (c : ColorCatalog) :
    registerAll palette (l1 ++ l2) c
      = registerAll palette l2 (registerAll palette l1 c) := by
  simp [registerAll, List.foldl_append]

/-- Registering two colors with the same resolved key returns the same
ID, in every catalog state (the second call hits the table entry the
first call found or created). -/
theorem register_same_key (palette : Palette) (S : ColorCatalog)
    (c1 c2 : Color) (h1 : ¬ c1.ctype = ColorType.Default)
    (h2 : ¬ c2.ctype = ColorType.Default)
    (hk : resolvedKey c1 palette = resolvedKey c2 palette) :
    (register c2 palette (register c1 palette S).2).1
      = (register c1 palette S).1 := by
  cases hget : assocGet S.lookup (resolvedKey c1 palette) with
  | some id =>
    rw [register_hit h1 hget]
    rw [register_hit h2 (by rw [← hk]; exact hget)]
  | none =>
    rw [register_miss h1 hget]
    have hget2 : assocGet
        (S.lookup ++ [(resolvedKey c1 palette, S.nextID)])
        (resolvedKey c2 palette) = some S.nextID := by
      rw [← hk, assocGet_append_of_none hget, assocGet, if_pos rfl]
    rw [register_hit h2 hget2]

/-- Registering two colors with different resolved keys returns different
IDs, in every no-wrap state with room for two fresh IDs. -/
theorem register_distinct_keys (palette : Palette) {S : ColorCatalog}
    (hok : CatOK S) (hroom : S.lookup.length + 2 < 65536)
    (c1 c2 : Color) (h1 : ¬ c1.ctype = ColorType.Default)
    (h2 : ¬ c2.ctype = ColorType.Default)
    (hk : resolvedKey c1 palette ≠ resolvedKey c2 palette) :
    (register c2 palette (register c1 palette S).2).1
      ≠ (register c1 palette S).1 := by
  have hids : (S.lookup.map Prod.snd).Nodup := by
    rw [hok.1]
    exact List.nodup_range' 1 S.lookup.length
  cases hget1 : assocGet S.lookup (resolvedKey c1 palette) with
  | some i1 =>
    rw [register_hit h1 hget1]
    cases hget2 : assocGet S.lookup (resolvedKey c2 palette) with
    | some i2 =>
      rw [register_hit h2 hget2]
      intro heq
      apply hk
      have heq' : i2 = i1 := heq
      exact assoc_snd_inj hids (assocGet_mem hget1)
        (heq' ▸ assocGet_mem hget2)
    | none =>
      rw [register_miss h2 hget2]
      have hb := catOK_id_bounds hok hget1
      intro heq
      have heq' : S.nextID = i1 := heq
      rw [hok.2] at heq'
      omega
  | none =>
    rw [register_miss h1 hget1]
    cases hget2 : assocGet S.lookup (resolvedKey c2 palette) with
    | some i2 =>
      have hget2' : assocGet
          (S.lookup ++ [(resolvedKey c1 palette, S.nextID)])
          (resolvedKey c2 palette) = some i2 :=
        assocGet_append_of_some hget2 _
      rw [register_hit h2 hget2']
      have hb := catOK_id_bounds hok hget2
      intro heq
      have heq' : i2 = S.nextID := heq
      rw [hok.2] at heq'
      omega
    | none =>
      have hget2' : assocGet
          (S.lookup ++ [(resolvedKey c1 palette, S.nextID)])
          (resolvedKey c2 palette) = none := by
        rw [assocGet_append_of_none hget2, assocGet, if_neg hk]
        rfl
      rw [register_miss h2 hget2']
      intro heq
      have heq' : (S.nextID + 1) % 65536 = S.nextID := heq
      rw [hok.2, Nat.mod_eq_of_lt (by omega)] at heq'
      omega

/-! ## Claim C2 -/

/-- C2 (amended): for every catalog state reachable by at most 65533
`Register` calls from a fresh catalog: registering a Default-type color
returns ID 0 and leaves the state untouched (in every state, even one
whose table resolves the color's RGB); two sequential registrations of
non-default colors with equal palette-resolved RGB triples return the
same ID; two sequential registrations with different resolved triples
return different IDs; the assigned IDs, in first-seen order, are exactly
1, 2, ..., n; and a further registration never disturbs previously
assigned entries (the old table is a prefix of the new one). Amendment
forced by the counterexample: the `uint16` ID counter wraps at 65536, so
the distinctness of IDs only holds while fewer than about 2^16 colors
have been registered (65533 calls keep a safe margin of two fresh IDs). -/
theorem claim2_catalog_register (palette : Palette) (fg bg : RGBA)
    (cols : List Color) (hlen : cols.length ≤ 65533) :
    (∀ col, col.ctype = ColorType.Default →
      register col palette (registerAll palette cols (newColorCatalog fg bg))
        = (DefaultColorID, registerAll palette cols (newColorCatalog fg bg)))
    ∧ (∀ c1 c2, ¬ c1.ctype = ColorType.Default →
        ¬ c2.ctype = ColorType.Default →
        resolvedKey c1 palette = resolvedKey c2 palette →
        (register c2 palette
          (register c1 palette
            (registerAll palette cols (newColorCatalog fg bg))).2).1
          = (register c1 palette
              (registerAll palette cols (newColorCatalog fg bg))).1)
    ∧ (∀ c1 c2, ¬ c1.ctype = ColorType.Default →
        ¬ c2.ctype = ColorType.Default →
        resolvedKey c1 palette ≠ resolvedKey c2 palette →
        (register c2 palette
          (register c1 palette
            (registerAll palette cols (newColorCatalog fg bg))).2).1
          ≠ (register c1 palette
              (registerAll palette cols (newColorCatalog fg bg))).1)
    ∧ ((registerAll palette cols (newColorCatalog fg bg)).lookup.map Prod.snd
        = List.range' 1
            (registerAll palette cols (newColorCatalog fg bg)).lookup.length)
    ∧ (∀ col,
        (registerAll palette cols (newColorCatalog fg bg)).lookup <+:
          ((register col palette
            (registerAll palette cols (newColorCatalog fg bg))).2).lookup) := by
  have hlen0 : (newColorCatalog fg bg).lookup.length = 0 := rfl
  have hreach := registerAll_catOK cols palette (newColorCatalog fg bg)
    (catOK_new fg bg) (by rw [hlen0]; omega)
  have hok := hreach.1
  have hroom : (registerAll palette cols
      (newColorCatalog fg bg)).lookup.length + 2 < 65536 := by
    have hgrow := hreach.2
    rw [hlen0] at hgrow
    omega
  refine ⟨?_, ?_, ?_, hok.1, ?_⟩
  · intro col hdef
    exact register_default palette _ hdef
  · intro c1 c2 h1 h2 hk
    exact register_same_key palette _ c1 c2 h1 h2 hk
  · intro c1 c2 h1 h2 hk
    exact register_distinct_keys palette hok hroom c1 c2 h1 h2 hk
  · intro col
    by_cases hdef : col.ctype = ColorType.Default
    · rw [register_default palette _ hdef]
    · cases hget : assocGet (registerAll palette cols
          (newColorCatalog fg bg)).lookup (resolvedKey col palette) with
      | some id => rw [register_hit hdef hget]
      | none =>
        rw [register_miss hdef hget]
        exact List.prefix_append _ _

theorem claim2_witness :
    (register defaultColor zeroPalette
        (registerAll zeroPalette [] (newColorCatalog ⟨255, 255, 255, 255⟩ ⟨0, 0, 0, 255⟩))
      = (DefaultColorID,
          registerAll zeroPalette [] (newColorCatalog ⟨255, 255, 255, 255⟩ ⟨0, 0, 0, 255⟩)))
    ∧ ((register (fromRGB 4 5 6) zeroPalette
          (register (fromRGB 1 2 3) zeroPalette
            (registerAll zeroPalette []
              (newColorCatalog ⟨255, 255, 255, 255⟩ ⟨0, 0, 0, 255⟩))).2).1
        ≠ (register (fromRGB 1 2 3) zeroPalette
            (registerAll zeroPalette []
              (newColorCatalog ⟨255, 255, 255, 255⟩ ⟨0, 0, 0, 255⟩))).1) := by
  have h := claim2_catalog_register zeroPalette ⟨255, 255, 255, 255⟩
    ⟨0, 0, 0, 255⟩ [] (by decide)
  exact ⟨h.1 defaultColor (by decide),
    h.2.2.1 (fromRGB 1 2 3) (fromRGB 4 5 6) (by decide) (by decide) (by decide)⟩

/-! ## The uint16 wrap-around of the ID counter

After 65536 successful registrations of colors with pairwise distinct
resolved RGB triples, the `uint16` counter `nextID` has wrapped back to 1
and `Register` hands out already-used IDs to new colors. The history is
655536 TrueColor colors enumerating distinct (r, g) pairs with b = 0. -/

/-- The i-th history color: TrueColor (i / 256, i mod 256, 0). -/
def cexColor (i : Nat) : Color := fromRGB (i / 256) (i % 256) 0

/-- Its resolved key (palette-independent: TrueColor). -/
def cexKey (i : Nat) : ColorKey := ⟨i / 256, i % 256, 0⟩

theorem resolvedKey_cexColor (i : Nat) (palette : Palette) :
    resolvedKey (cexColor i) palette = cexKey i := rfl

theorem cexColor_not_default (i : Nat) :
    ¬ (cexColor i).ctype = ColorType.Default := by
  intro h
  exact ColorType.noConfusion h

theorem cexKey_inj {i j : Nat} (h : cexKey i = cexKey j) : i = j := by
  rw [cexKey, cexKey, ColorKey.mk.injEq] at h
  have hi := Nat.div_add_mod i 256
  have hj := Nat.div_add_mod j 256
  omega

/-- The catalog after registering the first n history colors. -/
def cexState (n : Nat) : ColorCatalog :=
  registerAll zeroPalette ((List.range n).map cexColor) testCatalog

/-- Closed form of the reachable state: the i-th distinct color received
ID (i + 1) mod 65536, and the counter holds (n + 1) mod 65536. -/
theorem cexState_spec :
    ∀ n : Nat,
      (cexState n).lookup
          = (List.range n).map (fun i => (cexKey i, (i + 1) % 65536))
      ∧ (cexState n).nextID = (n + 1) % 65536 := by
  intro n
  induction n with
  | zero => exact ⟨rfl, rfl⟩
  | succ n ih =>
    have hstep : cexState (n + 1)
        = registerAll zeroPalette [cexColor n] (cexState n) := by
      rw [cexState, cexState, List.range_succ, List.map_append,
        registerAll_append]
      rfl
    have hmiss : assocGet (cexState n).lookup
        (resolvedKey (cexColor n) zeroPalette) = none := by
      rw [ih.1, resolvedKey_cexColor]
      apply assocGet_of_all_ne
      intro e he
      rw [List.mem_map] at he
      obtain ⟨i, hi, rfl⟩ := he
      rw [List.mem_range] at hi
      intro hkey
      exact absurd (cexKey_inj hkey) (Nat.ne_of_lt hi)
    have hreg : register (cexColor n) zeroPalette (cexState n)
        = ((cexState n).nextID, { cexState n with
            colors := assocSet (cexState n).colors (cexState n).nextID
              (toRGBA (cexColor n) zeroPalette),
            lookup := (cexState n).lookup
              ++ [(resolvedKey (cexColor n) zeroPalette, (cexState n).nextID)],
            nextID := ((cexState n).nextID + 1) % 65536 }) :=
      register_miss (cexColor_not_default n) hmiss
    constructor
    · rw [hstep]
      show ((register (cexColor n) zeroPalette (cexState n)).2).lookup = _
      rw [hreg]
      show (cexState n).lookup
          ++ [(resolvedKey (cexColor n) zeroPalette, (cexState n).nextID)] = _
      rw [ih.1, ih.2, resolvedKey_cexColor, List.range_succ, List.map_append]
      simp
    · rw [hstep]
      show ((register (cexColor n) zeroPalette (cexState n)).2).nextID = _
      rw [hreg]
      show ((cexState n).nextID + 1) % 65536 = _
      rw [ih.2]
      omega

/-- C2 counterexample: in the reachable catalog state `cexState 65536`
(65536 Register calls on colors with pairwise distinct resolved RGB
triples), the counter has wrapped to 1. Registering the fresh color
TrueColor(0,0,1), then the already-known color TrueColor(0,0,0), returns
the same ColorID (1) for both, although their resolved RGB triples
differ — refuting the claim that different resolved RGB triples always
receive different ColorIDs. -/
theorem register_miss_then_old_key (palette : Palette) (S : ColorCatalog)
    (c1 c2 : Color) (v : Nat)
    (h1 : ¬ c1.ctype = ColorType.Default) (h2 : ¬ c2.ctype = ColorType.Default)
    (hmiss : assocGet S.lookup (resolvedKey c1 palette) = none)
    (hget : assocGet S.lookup (resolvedKey c2 palette) = some v)
    (hnext : S.nextID = v) :
    (register c2 palette (register c1 palette S).2).1
      = (register c1 palette S).1 := by
  rw [register_miss h1 hmiss]
  have hhit : assocGet
      (S.lookup ++ [(resolvedKey c1 palette, S.nextID)])
      (resolvedKey c2 palette) = some v :=
    assocGet_append_of_some hget _
  rw [register_hit h2 hhit]
  exact hnext.symm

theorem cexState_miss_001 : assocGet (cexState 65536).lookup
    (resolvedKey (fromRGB 0 0 1) zeroPalette) = none := by
  rw [(cexState_spec 65536).1]
  apply assocGet_of_all_ne
  intro e he
  rw [List.mem_map] at he
  obtain ⟨i, hi, rfl⟩ := he
  intro hkey
  have hb := congrArg ColorKey.b hkey
  rw [cexKey] at hb
  exact Nat.noConfusion hb

theorem cexState_hit_000 : assocGet (cexState 65536).lookup
    (resolvedKey (fromRGB 0 0 0) zeroPalette) = some 1 := by
  rw [(cexState_spec 65536).1]
  rw [show List.range 65536 = 0 :: List.range' 1 65535 from by
    rw [List.range_eq_range', show (65536 : Nat) = 65535 + 1 from rfl,
      List.range'_succ]]
  rw [List.map_cons, assocGet]
  rw [if_pos (show (cexKey 0, (0 + 1) % 65536).1
      = resolvedKey (fromRGB 0 0 0) zeroPalette from rfl)]

theorem cexState_nextID : (cexState 65536).nextID = 1 := by
  rw [(cexState_spec 65536).2]

/-- C2 counterexample: in the reachable catalog state `cexState 65536`
(65536 Register calls on colors with pairwise distinct resolved RGB
triples), the `uint16` counter has wrapped back to 1. Registering the
fresh color TrueColor(0,0,1), then the already-known color
TrueColor(0,0,0), returns the same ColorID for both calls, although their
resolved RGB triples differ — refuting the claim that two colors with
different resolved RGB triples always receive different ColorIDs. -/
theorem claim2_wraparound_counterexample :
    resolvedKey (fromRGB 0 0 1) zeroPalette
        ≠ resolvedKey (fromRGB 0 0 0) zeroPalette
    ∧ ¬ (fromRGB 0 0 1).ctype = ColorType.Default
    ∧ ¬ (fromRGB 0 0 0).ctype = ColorType.Default
    ∧ (register (fromRGB 0 0 0) zeroPalette
        (register (fromRGB 0 0 1) zeroPalette (cexState 65536)).2).1
      = (register (fromRGB 0 0 1) zeroPalette (cexState 65536)).1 :=
  ⟨by decide, by decide, by decide,
    register_miss_then_old_key zeroPalette (cexState 65536)
      (fromRGB 0 0 1) (fromRGB 0 0 0) 1 (by decide) (by decide)
      cexState_miss_001 cexState_hit_000 cexState_nextID⟩

end Termsvg
